import Mathlib

/-!
Shallow embedding of the combinatorial core of `src/main.py`
("Planar Triangulated Graph Visualizer").

Modelling conventions, fixed once for the whole file:

* Python `Vertex` objects are compared by object identity; every vertex is
  created by `Graph.add_vertex` with a fresh integer `index`, so identity
  coincides with index equality in every state the program builds.  Lists of
  vertex references (`periphery`, the `connect_vertices` argument) are
  therefore embedded as lists of indices, and `neighbors` (a Python set of
  vertex references) as a `Finset` of indices.
* Machine floats appear only in vertex coordinates.  No claim under
  verification depends on a coordinate value, so coordinates are carried as
  rationals, and the two quantities the source computes with floating-point
  operations that have no exact rational counterpart — the placement of a
  newly inserted vertex (src lines 200-228, involving `math.sqrt`) and the
  pseudo-random colour (`random.randint`) — enter the embedded operations as
  explicit parameters.  Theorems quantify over them.
* `random.randint` draws in `add_random_vertex` are passed in explicitly:
  `idx1` for the first draw and a list `draws` for the successive samples of
  `idx2` taken by the retry loop.  The loop itself becomes "first draw
  satisfying the exit condition"; if no draw in the (arbitrarily long) list
  satisfies it the embedded function answers `none`, meaning the Python loop
  is still running after consuming those draws.
* `self.max_vertex` is `float('inf')` by default and an `int` after
  `go_to_vertex`; it is embedded as `Option Nat` with `none` standing for
  the infinite default.
* View-only fields of `Graph.__init__` that no claim touches (zoom, offsets,
  drag state, `show_indices`, `selected_vertices`, `mode`) are omitted, as is
  the vertex `radius`.  The seed coordinates of `start_basic_graph` are taken
  at the default `zoom_level = 1.0`.
-/

namespace PlanarVis

/-- Combinatorial content of the `Vertex` class (src/main.py lines 29-36). -/
structure Vertex where
  index : Nat
  x : ℚ
  y : ℚ
  color_idx : Nat
  neighbors : Finset Nat
deriving DecidableEq

/-- Combinatorial and view state of the `Graph` class (src/main.py
lines 92-104): vertex list, edge set of `(min, max)` index pairs, periphery
as an ordered list of vertex indices, and the `max_vertex` display bound. -/
structure Graph where
  vertices : List Vertex
  edges : Finset (Nat × Nat)
  periphery : List Nat
  max_vertex : Option Nat
deriving DecidableEq

/-- State installed by `Graph.__init__` (empty graph, unbounded display). -/
def graphInit : Graph := ⟨[], ∅, [], none⟩

/-- Neighbour set of the vertex with index `k`, the embedding of reading
`v.neighbors` from a vertex reference: the reference is resolved by looking
up the (unique, in every reachable state) list entry with that index. -/
def neighborsOf (g : Graph) (k : Nat) : Finset Nat :=
  ((g.vertices.find? (fun v => v.index = k)).map Vertex.neighbors).getD ∅

/-- Embedding of `Graph.add_vertex` (src lines 106-116): appends a vertex
with index `len(vertices) + 1`, empty neighbour set, and the given position
and colour (position is a parameter, see the file header), returning the
new index in place of the Python object reference. -/
def add_vertex (g : Graph) (px py : ℚ) (c : Nat) : Graph × Nat :=
  let idx := g.vertices.length + 1
  ({ g with vertices := g.vertices ++ [⟨idx, px, py, c, ∅⟩] }, idx)

/-- Update applied to one list entry by `v1.neighbors.add(v2)`: the vertex
whose index is `i` gains `j` as a neighbour. -/
def updNbr (i j : Nat) (v : Vertex) : Vertex :=
  if v.index = i then { v with neighbors := insert j v.neighbors } else v

/-- Mutation of the vertex list performed by `v1.neighbors.add(v2)`. -/
def addNeighbor (vs : List Vertex) (i j : Nat) : List Vertex :=
  vs.map (updNbr i j)

/-- Embedding of `Graph.add_edge` (src lines 118-122): guarded by
`v1 != v2 and v2 not in v1.neighbors` (object identity = index equality),
it records the neighbour relation both ways and stores the pair
`(min, max)` in the edge set. -/
def add_edge (g : Graph) (i1 i2 : Nat) : Graph :=
  if i1 ≠ i2 ∧ i2 ∉ neighborsOf g i1 then
    { g with
      vertices := addNeighbor (addNeighbor g.vertices i1 i2) i2 i1,
      edges := insert (min i1 i2, max i1 i2) g.edges }
  else g

/-- Embedding of `Graph.start_basic_graph` (src lines 124-142): clears all
state, creates the seed triangle vertices 1, 2, 3 (coordinates at the
default zoom level), adds the three edges, sets the periphery to `[1, 2, 3]`
and resets `max_vertex` to the unbounded default. -/
def start_basic_graph (g : Graph) : Graph :=
  let g0 : Graph := { g with vertices := [], edges := ∅, periphery := [] }
  let p1 := add_vertex g0 400 300 0
  let p2 := add_vertex p1.1 600 300 1
  let p3 := add_vertex p2.1 500 450 2
  let g4 := add_edge (add_edge (add_edge p3.1 p1.2 p2.2) p2.2 p3.2) p3.2 p1.2
  { g4 with periphery := [p1.2, p2.2, p3.2], max_vertex := none }

/-- Arc selection of `Graph.add_vertex_to_periphery` (src lines 194-198):
`periphery[idx_p:idx_q+1]` when `idx_p < idx_q`, otherwise the wrap-around
concatenation `periphery[idx_p:] + periphery[:idx_q+1]`. -/
def connectList (g : Graph) (vp vq : Nat) : List Nat :=
  let idx_p := g.periphery.indexOf vp
  let idx_q := g.periphery.indexOf vq
  if idx_p < idx_q then
    (g.periphery.drop idx_p).take (idx_q + 1 - idx_p)
  else
    g.periphery.drop idx_p ++ g.periphery.take (idx_q + 1)

/-- Embedding of `Graph.update_periphery_after_addition` (src lines
242-256): locates the replaced segment by the first and last connected
vertices and splices in the new vertex, with the wrap-around branch
`periphery[end_idx+1:start_idx] + [new_vertex]`. -/
def update_periphery_after_addition (g : Graph) (cv : List Nat)
    (newv : Nat) : Graph :=
  match cv with
  | [] => g
  | c0 :: _ =>
    let start_idx := g.periphery.indexOf c0
    let end_idx := g.periphery.indexOf (cv.getLastD c0)
    if start_idx ≤ end_idx then
      { g with periphery :=
          g.periphery.take start_idx ++ [newv] ++
            g.periphery.drop (end_idx + 1) }
    else
      { g with periphery :=
          (g.periphery.drop (end_idx + 1)).take (start_idx - (end_idx + 1))
            ++ [newv] }

/-- Embedding of `Graph.add_vertex_to_periphery` (src lines 182-240): the
membership guard, arc selection, vertex allocation, the edge fan, and the
periphery splice.  The `try/except ValueError` around the two `index` calls
can never fire (membership was just checked) and the geometric placement and
random colour enter as parameters `px py c` (see file header).  Returns the
updated graph and `some new_index` on success, or the unchanged graph and
`none` where the source returns `None`. -/
def add_vertex_to_periphery (g : Graph) (vp vq : Nat) (px py : ℚ)
    (c : Nat) : Graph × Option Nat :=
  if vp ∉ g.periphery ∨ vq ∉ g.periphery then (g, none)
  else
    let cv := connectList g vp vq
    let p := add_vertex g px py c
    let g2 := cv.foldl (fun h v => add_edge h p.2 v) p.1
    (update_periphery_after_addition g2 cv p.2, some p.2)

/-- Retry loop of `Graph.add_random_vertex` (src lines 267-269): keep
drawing `idx2` until `abs(idx1 - idx2) >= 2`; the first satisfying draw is
returned, `none` meaning the loop is still running after all given draws. -/
def pickSecond (idx1 : Nat) (draws : List Nat) : Option Nat :=
  draws.find? (fun idx2 => 2 ≤ Nat.dist idx1 idx2)

/-- Embedding of `Graph.add_random_vertex` (src lines 258-274) with the
random draws passed in explicitly.  Answers `none` when the retry loop
never exits within the given draws, and `some (g, r)` when the function
returns, `r` being the result of the inner insertion (the source discards
it and returns `None`; the state outcome is what the claims are about). -/
def add_random_vertex (g : Graph) (idx1 : Nat) (draws : List Nat)
    (px py : ℚ) (c : Nat) : Option (Graph × Option Nat) :=
  if g.periphery.length < 2 then some (g, none)
  else
    match pickSecond idx1 draws with
    | none => none
    | some idx2 =>
      let vp := g.periphery.getD (min idx1 idx2) 0
      let vq := g.periphery.getD (max idx1 idx2) 0
      some (add_vertex_to_periphery g vp vq px py c)

/-- Embedding of `Graph.go_to_vertex` (src lines 276-278). -/
def go_to_vertex (g : Graph) (m : Nat) : Graph :=
  { g with max_vertex := some m }

/-- Modelled from the spec: `clearTruncation`, listed in the specified
external interface, has no counterpart in the source; per the spec it
restores the default "no limit" bound (the value `reset` installs). -/
def clear_truncation (g : Graph) : Graph :=
  { g with max_vertex := none }

/-- Comparison `index <= self.max_vertex` from the drawing code; `none`
models `float('inf')`, against which every index compares `<=`. -/
def le_bound (i : Nat) : Option Nat → Bool
  | none => true
  | some m => i ≤ m

/-- Vertices drawn by `Graph.draw` (src lines 294-295): those with
`index <= max_vertex`. -/
def visibleVertices (g : Graph) : List Vertex :=
  g.vertices.filter (fun v => le_bound v.index g.max_vertex)

/-- Edges drawn by `Graph.draw` (src lines 282-284): both endpoints within
the bound. -/
def visibleEdges (g : Graph) : Finset (Nat × Nat) :=
  g.edges.filter (fun e => le_bound e.1 g.max_vertex ∧ le_bound e.2 g.max_vertex)

/-- Periphery points drawn by `Graph.draw` (src lines 321-327). -/
def visiblePeriphery (g : Graph) : List Nat :=
  g.periphery.filter (fun i => le_bound i g.max_vertex)

/-- Embedding of `Graph.is_left` (src lines 178-180), on rational
coordinates. -/
def is_left (a b c : Vertex) : Bool :=
  (b.x - a.x) * (c.y - a.y) - (b.y - a.y) * (c.x - a.x) > 0

/-- Choice `min(self.vertices, key=lambda v: v.x)` (src line 150): the first
vertex attaining the minimal x-coordinate. -/
def leftmostVertex (v0 : Vertex) (rest : List Vertex) : Vertex :=
  rest.foldl (fun acc v => if v.x < acc.x then v else acc) v0

/-- Inner candidate scan of `Graph.find_periphery` (src lines 159-163):
start from `vertices[0]` and replace the endpoint whenever it equals the
current hull point or the candidate lies to its left. -/
def selectEndpoint (vs : List Vertex) (point : Vertex) : Vertex :=
  vs.tail.foldl
    (fun endpoint vj =>
      if endpoint.index = point.index ∨ is_left point endpoint vj then vj
      else endpoint)
    (vs.headD point)

/-- Gift-wrapping loop of `Graph.find_periphery` (src lines 157-174): each
iteration appends the current point, selects the next endpoint, stops when
the endpoint equals the hull start, and otherwise consumes one unit of the
counter budget; budget exhaustion is the `i > len(self.vertices)` safety
break. -/
def hullLoop (vs : List Vertex) (start : Vertex) :
    Nat → Vertex → List Vertex → List Vertex
  | fuel, p, acc =>
    let acc2 := acc ++ [p]
    let e := selectEndpoint vs p
    if e.index = start.index then acc2
    else
      match fuel with
      | 0 => acc2
      | f + 1 => hullLoop vs start f e acc2

/-- Embedding of `Graph.find_periphery` (src lines 144-176): empty input
gives the empty hull; otherwise the walk starts at the leftmost vertex with
counter budget `len(self.vertices)`. -/
def find_periphery (g : Graph) : List Vertex :=
  match g.vertices with
  | [] => []
  | v0 :: rest =>
    let leftmost := leftmostVertex v0 rest
    hullLoop g.vertices leftmost g.vertices.length leftmost []

/-- Mutual consistency of the edge set and the per-vertex neighbour sets:
every stored edge is an ordered pair of distinct indices registered in both
endpoints' neighbour sets, and every registered neighbour is backed by the
corresponding `(min, max)` edge. -/
def edgesConsistent (g : Graph) : Prop :=
  (∀ e ∈ g.edges,
      e.1 < e.2
        ∧ (∃ v ∈ g.vertices, v.index = e.1 ∧ e.2 ∈ v.neighbors)
        ∧ (∃ v ∈ g.vertices, v.index = e.2 ∧ e.1 ∈ v.neighbors))
  ∧ ∀ v ∈ g.vertices, ∀ j ∈ v.neighbors,
      (min v.index j, max v.index j) ∈ g.edges

instance (g : Graph) : Decidable (edgesConsistent g) := by
  unfold edgesConsistent
  infer_instance

/-- Structural well-formedness maintained by the program: vertex indices are
`1..n` in creation order, the periphery is a duplicate-free list of valid
indices, edges and neighbour sets mention only valid indices, and the edge
set agrees with the neighbour sets. -/
def WF (g : Graph) : Prop :=
  g.vertices.map Vertex.index = List.range' 1 g.vertices.length
  ∧ g.periphery.Nodup
  ∧ (∀ i ∈ g.periphery, 1 ≤ i ∧ i ≤ g.vertices.length)
  ∧ (∀ e ∈ g.edges,
      1 ≤ e.1 ∧ e.1 ≤ g.vertices.length ∧ 1 ≤ e.2 ∧ e.2 ≤ g.vertices.length)
  ∧ (∀ v ∈ g.vertices, ∀ j ∈ v.neighbors, 1 ≤ j ∧ j ≤ g.vertices.length)
  ∧ edgesConsistent g

instance (g : Graph) : Decidable (WF g) := by
  unfold WF
  infer_instance

/-- States reachable through the program's mutating operations: reset
(`start_basic_graph`), deliberate insertion (`add_vertex_to_periphery` with
any endpoints, placement and colour), random insertion
(`add_random_vertex` with any draws, when its loop exits), and the display
bound setter (`go_to_vertex`). -/
inductive Reachable : Graph → Prop
  | seed (g : Graph) : Reachable (start_basic_graph g)
  | insert (g : Graph) (vp vq : Nat) (px py : ℚ) (c : Nat) :
      Reachable g → Reachable (add_vertex_to_periphery g vp vq px py c).1
  | random (g : Graph) (idx1 : Nat) (draws : List Nat) (px py : ℚ) (c : Nat)
      (g2 : Graph) (r : Option Nat) :
      Reachable g → add_random_vertex g idx1 draws px py c = some (g2, r) →
      Reachable g2
  | goto (g : Graph) (m : Nat) : Reachable g → Reachable (go_to_vertex g m)

/-- Degree of the vertex with index `i`: the size of its neighbour set. -/
def degree (g : Graph) (i : Nat) : Nat :=
  (neighborsOf g i).card

/-- Proof apparatus (no source counterpart): the cumulative effect on one
vertex-list entry of the edge fan added so far — vertices whose index is
among the processed arc `pr` have gained the new vertex `m` as a
neighbour. -/
def updFan (m : Nat) (pr : List Nat) (v : Vertex) : Vertex :=
  if v.index ∈ pr then { v with neighbors := insert m v.neighbors } else v

/-- Proof apparatus (no source counterpart): the graph state in the middle
of the edge-fan loop of `add_vertex_to_periphery`, after the new vertex was
allocated and the arc prefix `pr` has been connected to it. -/
def fanState (g : Graph) (px py : ℚ) (c : Nat) (pr : List Nat) : Graph :=
  { vertices :=
      g.vertices.map (updFan (g.vertices.length + 1) pr)
        ++ [⟨g.vertices.length + 1, px, py, c, pr.toFinset⟩],
    edges :=
      g.edges ∪ (pr.map (fun v => (v, g.vertices.length + 1))).toFinset,
    periphery := g.periphery,
    max_vertex := g.max_vertex }

/-- The seed triangle state: `start_basic_graph` applied to a fresh graph. -/
def seedGraph : Graph := start_basic_graph graphInit

/-- Result of `add_vertex_to_periphery(v1, v2)` on the seed triangle (the
scenario `insertOnArc(1,2)`), with placement and colour instantiated at 0
(they influence nothing the claims observe). -/
def insertSeed12 : Graph × Option Nat :=
  add_vertex_to_periphery seedGraph 1 2 0 0 0

/-- Result of the degenerate call `add_vertex_to_periphery(v1, v1)` on the
seed triangle. -/
def insertSeed11 : Graph × Option Nat :=
  add_vertex_to_periphery seedGraph 1 1 0 0 0

end PlanarVis

namespace PlanarVis

/-- C1: the claim asserts that every graph reachable by reset and insert
operations keeps a periphery of at least 3 vertices with every cyclically
consecutive pair edge-connected.  The code violates it: on the seed
triangle, the successful `add_vertex_to_periphery(v1, v2)` removes both arc
endpoints from the periphery, leaving `[4, 3]` — only 2 vertices, and the
consecutive pair `(3, 4)` is not an edge.  This theorem evaluates the code
at that failing input. -/
theorem c1_insert_breaks_periphery_invariant :
    insertSeed12.2 = some 4
    ∧ insertSeed12.1.periphery = [4, 3]
    ∧ insertSeed12.1.periphery.length < 3
    ∧ (min 3 4, max 3 4) ∉ insertSeed12.1.edges := by
  decide

/-- C2: the claim asserts that `insertOnArc(1,2)` on the seed triangle
yields periphery `[1, 4, 2, 3]` up to rotation.  The code creates vertex 4
and adds exactly the edges `(1,4)` and `(2,4)` as claimed, but
`update_periphery_after_addition` splices out the whole segment including
the endpoints: the resulting periphery is `[4, 3]`, which has length 2 and
therefore is no rotation of the claimed 4-cycle.  This theorem evaluates
the code at that input. -/
theorem c2_scenario_periphery_diverges :
    insertSeed12.2 = some 4
    ∧ insertSeed12.1.vertices.length = 4
    ∧ insertSeed12.1.edges = {(1, 2), (2, 3), (1, 3), (1, 4), (2, 4)}
    ∧ insertSeed12.1.periphery = [4, 3]
    ∧ insertSeed12.1.periphery.length ≠ [1, 4, 2, 3].length := by
  decide

/-- C3: the claim asserts that `insertOnArc(v, v)` is rejected with
`InvalidBoundaryVertex` and leaves the state unchanged.  The code has no
`vp == vq` check: on the seed triangle the call succeeds, the wrap-around
arc becomes the entire periphery plus a duplicate of `v1`, vertex 4 is
created and connected to all of 1, 2, 3, and `v1` is replaced by 4 in the
periphery.  This theorem evaluates the code at that failing input. -/
theorem c3_degenerate_arc_not_rejected :
    insertSeed11.2 = some 4
    ∧ insertSeed11.1.vertices.length = seedGraph.vertices.length + 1
    ∧ insertSeed11.1.edges = {(1, 2), (2, 3), (1, 3), (1, 4), (2, 4), (3, 4)}
    ∧ insertSeed11.1.periphery = [4, 2, 3]
    ∧ connectList seedGraph 1 1 = [1, 2, 3, 1] := by
  decide

/-- C5: if at least one of the two endpoints is not on the current
periphery, `add_vertex_to_periphery` returns `None` and the state
(vertex list, edge set, periphery, and display bound alike) is exactly the
state before the call. -/
theorem c5_invalid_endpoint_rejected_atomically (g : Graph) (vp vq : Nat)
    (px py : ℚ) (c : Nat) (h : vp ∉ g.periphery ∨ vq ∉ g.periphery) :
    add_vertex_to_periphery g vp vq px py c = (g, none) := by
  unfold add_vertex_to_periphery
  rw [if_pos h]

/-- C5 witness: endpoint 5 is not on the seed periphery, and the call with
it returns the unchanged seed graph and no vertex. -/
theorem c5_witness :
    add_vertex_to_periphery seedGraph 5 2 0 0 0 = (seedGraph, none) :=
  c5_invalid_endpoint_rejected_atomically seedGraph 5 2 0 0 0
    (Or.inl (by decide))

/-- C6: the claim asserts the random insertion always picks two periphery
positions at cyclic distance at least 2 in both rotational directions, so
the arc is never the entire periphery.  The code only enforces the linear
separation `abs(idx1 - idx2) >= 2`: on the seed triangle the admissible
draw `idx1 = 0, idx2 = 2` picks the first and last positions, which are
cyclically adjacent (backward separation `3 - 2 = 1`), the selected arc is
the whole periphery `[1, 2, 3]`, and the insertion collapses the periphery
to the single vertex `[4]`.  This theorem evaluates the code at that
failing input. -/
theorem c6_random_pick_cyclically_adjacent :
    seedGraph.periphery.length = 3
    ∧ pickSecond 0 [2] = some 2
    ∧ seedGraph.periphery.length - Nat.dist 0 2 = 1
    ∧ connectList seedGraph 1 3 = seedGraph.periphery
    ∧ (add_random_vertex seedGraph 0 [2] 0 0 0).map (fun p => p.1.periphery)
        = some [4] := by
  decide

/-- C9: `go_to_vertex` only sets the display bound — the vertex list, edge
set and periphery are untouched — and, starting from the default unbounded
display, setting a bound and then clearing it restores exactly the visible
vertex, edge and periphery sets from before truncation. -/
theorem c9_truncation_pure_and_reversible (g : Graph) (m : Nat)
    (h : g.max_vertex = none) :
    (go_to_vertex g m).vertices = g.vertices
    ∧ (go_to_vertex g m).edges = g.edges
    ∧ (go_to_vertex g m).periphery = g.periphery
    ∧ visibleVertices (clear_truncation (go_to_vertex g m)) = visibleVertices g
    ∧ visibleEdges (clear_truncation (go_to_vertex g m)) = visibleEdges g
    ∧ visiblePeriphery (clear_truncation (go_to_vertex g m))
        = visiblePeriphery g := by
  obtain ⟨vs, es, per, mv⟩ := g
  cases h
  exact ⟨rfl, rfl, rfl, rfl, rfl, rfl⟩

/-- C7: the claim asserts `insertRandom` always terminates — returning
without mutation when the periphery is too small, and in boundary-bounded
time otherwise.  The code only short-circuits when the periphery has fewer
than 2 vertices; on a periphery of exactly 2 vertices (reachable: seed
triangle followed by `insertOnArc(1,2)` gives periphery `[4, 3]`) the loop
`while abs(idx1 - idx2) < 2` can never exit, because every draw the
generator can produce lies in `{0, 1}`.  This theorem evaluates the code at
that failing input: whatever finite sequence of admissible draws the random
generator yields, the embedded loop has not returned. -/
theorem c7_insert_random_loops_forever (idx1 : Nat) (draws : List Nat)
    (px py : ℚ) (c : Nat)
    (h1 : idx1 < insertSeed12.1.periphery.length)
    (h2 : ∀ d ∈ draws, d < insertSeed12.1.periphery.length) :
    2 ≤ insertSeed12.1.periphery.length
    ∧ add_random_vertex insertSeed12.1 idx1 draws px py c = none := by
  have hlen : insertSeed12.1.periphery.length = 2 := by decide
  rw [hlen] at h1 h2
  refine ⟨by rw [hlen], ?_⟩
  have hp : pickSecond idx1 draws = none := by
    unfold pickSecond
    rw [List.find?_eq_none]
    intro d hd
    have hda := h2 d hd
    simp only [decide_eq_true_eq, not_le]
    have : Nat.dist idx1 d = idx1 - d + (d - idx1) := rfl
    omega
  unfold add_random_vertex
  rw [hlen, hp]
  simp

/-- C7 witness: on the length-2 periphery state, the admissible draws
`idx1 = 0` and `idx2` samples `[1, 0, 1]` leave the retry loop running. -/
theorem c7_witness :
    2 ≤ insertSeed12.1.periphery.length
    ∧ add_random_vertex insertSeed12.1 0 [1, 0, 1] 0 0 0 = none :=
  c7_insert_random_loops_forever 0 [1, 0, 1] 0 0 0 (by decide) (by decide)

/-- Each iteration of the gift-wrapping loop appends exactly one hull point
and consumes one unit of counter budget, so the hull grows by at most
`fuel + 1` points. -/
theorem hullLoop_length_le (vs : List Vertex) (start : Vertex) :
    ∀ (fuel : Nat) (p : Vertex) (acc : List Vertex),
      (hullLoop vs start fuel p acc).length ≤ acc.length + fuel + 1 := by
  intro fuel
  induction fuel with
  | zero =>
    intro p acc
    have he : hullLoop vs start 0 p acc =
        (if (selectEndpoint vs p).index = start.index
          then acc ++ [p] else acc ++ [p]) := rfl
    rw [he]
    split <;> simp
  | succ f ih =>
    intro p acc
    have he : hullLoop vs start (f + 1) p acc =
        (if (selectEndpoint vs p).index = start.index
          then acc ++ [p]
          else hullLoop vs start f (selectEndpoint vs p) (acc ++ [p])) := rfl
    rw [he]
    split
    · simp
    · have h := ih (selectEndpoint vs p) (acc ++ [p])
      simp only [List.length_append, List.length_cons, List.length_nil] at h ⊢
      omega

/-- C8: `find_periphery` terminates on every vertex set — collinear or
duplicate positions included — because the walk stops either when the
selected endpoint equals the starting vertex or when the step counter
exceeds the vertex count; the hull returned (possibly a partial one) hence
never exceeds `len(vertices) + 1` points, and no error is signalled. -/
theorem c8_find_periphery_terminates (g : Graph) :
    (find_periphery g).length ≤ g.vertices.length + 1 := by
  unfold find_periphery
  split
  · simp
  · next v0 rest heq =>
    have h := hullLoop_length_le g.vertices (leftmostVertex v0 rest)
      g.vertices.length (leftmostVertex v0 rest) []
    simpa using h

/-- C9 witness: the seed graph has the unbounded default display, and
truncating it to 2 and clearing is invisible to all three visible sets. -/
theorem c9_witness :
    (go_to_vertex seedGraph 2).vertices = seedGraph.vertices
    ∧ (go_to_vertex seedGraph 2).edges = seedGraph.edges
    ∧ (go_to_vertex seedGraph 2).periphery = seedGraph.periphery
    ∧ visibleVertices (clear_truncation (go_to_vertex seedGraph 2))
        = visibleVertices seedGraph
    ∧ visibleEdges (clear_truncation (go_to_vertex seedGraph 2))
        = visibleEdges seedGraph
    ∧ visiblePeriphery (clear_truncation (go_to_vertex seedGraph 2))
        = visiblePeriphery seedGraph :=
  c9_truncation_pure_and_reversible seedGraph 2 (by decide)

theorem updNbr_index (i j : Nat) (v : Vertex) :
    (updNbr i j v).index = v.index := by
  unfold updNbr
  split <;> rfl

theorem updFan_index (m : Nat) (pr : List Nat) (v : Vertex) :
    (updFan m pr v).index = v.index := by
  unfold updFan
  split <;> rfl

theorem find?_index_map (vs : List Vertex) (f : Vertex → Vertex)
    (hf : ∀ v, (f v).index = v.index) (k : Nat) :
    (vs.map f).find? (fun v => v.index = k)
      = (vs.find? (fun v => v.index = k)).map f := by
  induction vs with
  | nil => rfl
  | cons v vs ih =>
    by_cases h : v.index = k
    · simp [List.find?_cons, hf, h]
    · simp [List.find?_cons, hf, h, ih]

theorem find?_append_left_none {α : Type} (p : α → Bool) (l1 l2 : List α)
    (h : l1.find? p = none) : (l1 ++ l2).find? p = l2.find? p := by
  rw [List.find?_append, h, Option.none_or]

theorem add_edge_periphery (g : Graph) (i1 i2 : Nat) :
    (add_edge g i1 i2).periphery = g.periphery := by
  unfold add_edge
  split <;> rfl

theorem add_edge_max_vertex (g : Graph) (i1 i2 : Nat) :
    (add_edge g i1 i2).max_vertex = g.max_vertex := by
  unfold add_edge
  split <;> rfl

theorem index_bounds_of_mem (g : Graph)
    (hidx : g.vertices.map Vertex.index = List.range' 1 g.vertices.length)
    (v : Vertex) (hv : v ∈ g.vertices) :
    1 ≤ v.index ∧ v.index ≤ g.vertices.length := by
  have h : v.index ∈ g.vertices.map Vertex.index :=
    List.mem_map_of_mem _ hv
  rw [hidx, List.mem_range'_1] at h
  omega

theorem exists_vertex_of_index (g : Graph)
    (hidx : g.vertices.map Vertex.index = List.range' 1 g.vertices.length)
    (k : Nat) (h1 : 1 ≤ k) (h2 : k ≤ g.vertices.length) :
    ∃ v ∈ g.vertices, v.index = k := by
  have h : k ∈ g.vertices.map Vertex.index := by
    rw [hidx, List.mem_range'_1]
    omega
  obtain ⟨v, hv, hvk⟩ := List.mem_map.mp h
  exact ⟨v, hv, hvk⟩

theorem fanState_find_new (g : Graph) (px py : ℚ) (c : Nat) (pr : List Nat)
    (hidx : g.vertices.map Vertex.index = List.range' 1 g.vertices.length) :
    (fanState g px py c pr).vertices.find?
        (fun v => v.index = g.vertices.length + 1)
      = some ⟨g.vertices.length + 1, px, py, c, pr.toFinset⟩ := by
  unfold fanState
  rw [find?_append_left_none]
  · simp [List.find?_cons]
  · rw [List.find?_eq_none]
    intro v hv
    obtain ⟨w, hw, rfl⟩ := List.mem_map.mp hv
    have hb := index_bounds_of_mem g hidx w hw
    rw [updFan_index]
    simp only [decide_eq_true_eq]
    omega

theorem neighborsOf_fanState_new (g : Graph) (px py : ℚ) (c : Nat)
    (pr : List Nat)
    (hidx : g.vertices.map Vertex.index = List.range' 1 g.vertices.length) :
    neighborsOf (fanState g px py c pr) (g.vertices.length + 1)
      = pr.toFinset := by
  unfold neighborsOf
  rw [fanState_find_new g px py c pr hidx]
  rfl

theorem fan_base (g : Graph) (px py : ℚ) (c : Nat) :
    fanState g px py c [] = (add_vertex g px py c).1 := by
  unfold fanState add_vertex updFan
  simp

theorem toFinset_append_of_mem {α : Type} [DecidableEq α] (l : List α)
    (a : α) (h : a ∈ l) : (l ++ [a]).toFinset = l.toFinset := by
  ext b
  simp only [List.mem_toFinset, List.mem_append, List.mem_singleton]
  constructor
  · rintro (hb | rfl)
    · exact hb
    · exact h
  · exact Or.inl

theorem graph_update_eq (a b : Graph) (hp : a.periphery = b.periphery)
    (hm : a.max_vertex = b.max_vertex) :
    ({ a with vertices := b.vertices, edges := b.edges } : Graph) = b := by
  cases a
  cases b
  cases hp
  cases hm
  rfl

theorem fanState_dup (g : Graph) (px py : ℚ) (c : Nat) (pr : List Nat)
    (v : Nat) (h : v ∈ pr) :
    fanState g px py c (pr ++ [v]) = fanState g px py c pr := by
  have h1 : ∀ w : Vertex,
      updFan (g.vertices.length + 1) (pr ++ [v]) w
        = updFan (g.vertices.length + 1) pr w := by
    intro w
    unfold updFan
    by_cases hc : w.index ∈ pr
    · rw [if_pos (List.mem_append.mpr (Or.inl hc)), if_pos hc]
    · rw [if_neg, if_neg hc]
      simp only [List.mem_append, List.mem_singleton]
      push_neg
      exact ⟨hc, fun hwv => absurd (by rw [hwv]; exact h) hc⟩
  unfold fanState
  rw [show g.vertices.map (updFan (g.vertices.length + 1) (pr ++ [v]))
        = g.vertices.map (updFan (g.vertices.length + 1) pr) from
      List.map_congr_left (fun a _ => h1 a)]
  rw [toFinset_append_of_mem pr v h, List.map_append]
  simp only [List.map_cons, List.map_nil]
  rw [toFinset_append_of_mem _ _
    (List.mem_map_of_mem (fun x => (x, g.vertices.length + 1)) h)]

theorem fan_step (g : Graph) (px py : ℚ) (c : Nat) (pr : List Nat) (v : Nat)
    (hidx : g.vertices.map Vertex.index = List.range' 1 g.vertices.length)
    (hvn : v ≤ g.vertices.length) :
    add_edge (fanState g px py c pr) (g.vertices.length + 1) v
      = fanState g px py c (pr ++ [v]) := by
  by_cases hmem : v ∈ pr
  · rw [fanState_dup g px py c pr v hmem]
    unfold add_edge
    rw [if_neg]
    intro hand
    exact hand.2 (by
      rw [neighborsOf_fanState_new g px py c pr hidx]
      exact List.mem_toFinset.mpr hmem)
  · have hne : g.vertices.length + 1 ≠ v := by omega
    have hverts :
        addNeighbor (addNeighbor (fanState g px py c pr).vertices
            (g.vertices.length + 1) v) v (g.vertices.length + 1)
          = (fanState g px py c (pr ++ [v])).vertices := by
      unfold fanState addNeighbor
      simp only [List.map_append, List.map_map, List.map_cons, List.map_nil]
      congr 1
      · apply List.map_congr_left
        intro w hw
        have hwb := index_bounds_of_mem g hidx w hw
        have hwn : w.index ≠ g.vertices.length + 1 := by omega
        by_cases h1 : w.index ∈ pr
        · have h2 : w.index ≠ v := fun he => hmem (he ▸ h1)
          simp [Function.comp, updNbr, updFan, h1, h2, hwn, List.mem_append]
        · by_cases h2 : w.index = v
          · simp [Function.comp, updNbr, updFan, h1, h2, hwn, hmem,
              Ne.symm hne, List.mem_append]
          · simp [Function.comp, updNbr, updFan, h1, h2, hwn,
              List.mem_append]
      · have hfin : insert v pr.toFinset = (pr ++ [v]).toFinset := by
          ext a
          simp [List.mem_append, or_comm]
        simp [updNbr, hne, hfin]
    have hedges :
        insert (min (g.vertices.length + 1) v, max (g.vertices.length + 1) v)
            (fanState g px py c pr).edges
          = (fanState g px py c (pr ++ [v])).edges := by
      have hmin : min (g.vertices.length + 1) v = v := by omega
      have hmax : max (g.vertices.length + 1) v = g.vertices.length + 1 := by
        omega
      unfold fanState
      rw [hmin, hmax, List.map_append]
      simp only [List.map_cons, List.map_nil]
      rw [List.toFinset_append]
      ext e
      simp only [Finset.mem_insert, Finset.mem_union, List.mem_toFinset,
        List.mem_singleton]
      tauto
    unfold add_edge
    rw [if_pos ⟨hne, by
      rw [neighborsOf_fanState_new g px py c pr hidx]
      rw [List.mem_toFinset]
      exact hmem⟩]
    rw [hverts, hedges]
    exact graph_update_eq _ _ rfl rfl

theorem fan_fold (g : Graph) (px py : ℚ) (c : Nat)
    (hidx : g.vertices.map Vertex.index = List.range' 1 g.vertices.length) :
    ∀ (l pr : List Nat), (∀ x ∈ l, x ≤ g.vertices.length) →
      l.foldl (fun h v => add_edge h (g.vertices.length + 1) v)
          (fanState g px py c pr)
        = fanState g px py c (pr ++ l) := by
  intro l
  induction l with
  | nil =>
    intro pr _
    simp
  | cons v l ih =>
    intro pr hb
    simp only [List.foldl_cons]
    rw [fan_step g px py c pr v hidx (hb v (by simp))]
    rw [ih (pr ++ [v]) (fun x hx => hb x (by simp [hx]))]
    simp

theorem fan_eq (g : Graph) (px py : ℚ) (c : Nat) (l : List Nat)
    (hidx : g.vertices.map Vertex.index = List.range' 1 g.vertices.length)
    (hb : ∀ x ∈ l, x ≤ g.vertices.length) :
    l.foldl (fun h v => add_edge h (g.vertices.length + 1) v)
        (add_vertex g px py c).1
      = fanState g px py c l := by
  rw [← fan_base g px py c, fan_fold g px py c hidx l [] hb]
  simp

theorem fanState_edges (g : Graph) (px py : ℚ) (c : Nat) (pr : List Nat) :
    (fanState g px py c pr).edges
      = g.edges
          ∪ (pr.map (fun v => (v, g.vertices.length + 1))).toFinset := rfl

theorem fanState_vertices (g : Graph) (px py : ℚ) (c : Nat) (pr : List Nat) :
    (fanState g px py c pr).vertices
      = g.vertices.map (updFan (g.vertices.length + 1) pr)
          ++ [⟨g.vertices.length + 1, px, py, c, pr.toFinset⟩] := rfl

theorem fanState_periphery (g : Graph) (px py : ℚ) (c : Nat)
    (pr : List Nat) : (fanState g px py c pr).periphery = g.periphery := rfl

theorem fanState_max_vertex (g : Graph) (px py : ℚ) (c : Nat)
    (pr : List Nat) : (fanState g px py c pr).max_vertex = g.max_vertex := rfl

theorem fanState_vertices_length (g : Graph) (px py : ℚ) (c : Nat)
    (pr : List Nat) :
    (fanState g px py c pr).vertices.length = g.vertices.length + 1 := by
  rw [fanState_vertices]
  simp

theorem fanState_map_index (g : Graph) (px py : ℚ) (c : Nat) (pr : List Nat)
    (hidx : g.vertices.map Vertex.index = List.range' 1 g.vertices.length) :
    (fanState g px py c pr).vertices.map Vertex.index
      = List.range' 1 ((fanState g px py c pr).vertices.length) := by
  rw [fanState_vertices_length, fanState_vertices, List.map_append,
    List.map_map]
  have h1 : g.vertices.map (Vertex.index ∘ updFan (g.vertices.length + 1) pr)
      = g.vertices.map Vertex.index :=
    List.map_congr_left (fun a _ => updFan_index _ _ _)
  rw [h1, hidx, List.range'_concat]
  simp
  omega

theorem fanState_edges_subset (g : Graph) (px py : ℚ) (c : Nat)
    (pr : List Nat) : g.edges ⊆ (fanState g px py c pr).edges := by
  rw [fanState_edges]
  exact Finset.subset_union_left

theorem fanState_edges_card (g : Graph) (px py : ℚ) (c : Nat) (pr : List Nat)
    (hnd : pr.Nodup)
    (hb : ∀ e ∈ g.edges, e.2 ≤ g.vertices.length) :
    (fanState g px py c pr).edges.card = g.edges.card + pr.length := by
  rw [fanState_edges, Finset.card_union_of_disjoint]
  · congr 1
    rw [List.toFinset_card_of_nodup, List.length_map]
    exact hnd.map (fun a b hab => (Prod.mk.injEq _ _ _ _ ▸ hab).1)
  · rw [Finset.disjoint_left]
    intro e he hmem
    rw [List.mem_toFinset, List.mem_map] at hmem
    obtain ⟨x, _, rfl⟩ := hmem
    have := hb _ he
    simp at this

theorem fanState_edge_bounds (g : Graph) (px py : ℚ) (c : Nat)
    (pr : List Nat)
    (hb : ∀ e ∈ g.edges,
      1 ≤ e.1 ∧ e.1 ≤ g.vertices.length ∧ 1 ≤ e.2 ∧ e.2 ≤ g.vertices.length)
    (hprb : ∀ x ∈ pr, 1 ≤ x ∧ x ≤ g.vertices.length) :
    ∀ e ∈ (fanState g px py c pr).edges,
      1 ≤ e.1 ∧ e.1 ≤ (fanState g px py c pr).vertices.length
        ∧ 1 ≤ e.2 ∧ e.2 ≤ (fanState g px py c pr).vertices.length := by
  intro e he
  rw [fanState_vertices_length]
  rw [fanState_edges, Finset.mem_union] at he
  rcases he with he | he
  · have := hb e he
    omega
  · rw [List.mem_toFinset, List.mem_map] at he
    obtain ⟨x, hx, rfl⟩ := he
    have := hprb x hx
    simp only []
    omega

theorem fanState_nbr_bounds (g : Graph) (px py : ℚ) (c : Nat) (pr : List Nat)
    (hb : ∀ v ∈ g.vertices, ∀ j ∈ v.neighbors,
      1 ≤ j ∧ j ≤ g.vertices.length)
    (hprb : ∀ x ∈ pr, 1 ≤ x ∧ x ≤ g.vertices.length) :
    ∀ v ∈ (fanState g px py c pr).vertices, ∀ j ∈ v.neighbors,
      1 ≤ j ∧ j ≤ (fanState g px py c pr).vertices.length := by
  intro v hv j hj
  rw [fanState_vertices_length]
  rw [fanState_vertices, List.mem_append] at hv
  rcases hv with hv | hv
  · rw [List.mem_map] at hv
    obtain ⟨w, hw, rfl⟩ := hv
    unfold updFan at hj
    split at hj
    · simp only [Finset.mem_insert] at hj
      rcases hj with rfl | hj
      · omega
      · have := hb w hw j hj
        omega
    · have := hb w hw j hj
      omega
  · simp only [List.mem_singleton] at hv
    subst hv
    simp only [List.mem_toFinset] at hj
    have := hprb j hj
    omega

theorem fanState_consistent (g : Graph) (px py : ℚ) (c : Nat) (pr : List Nat)
    (hidx : g.vertices.map Vertex.index = List.range' 1 g.vertices.length)
    (hprb : ∀ x ∈ pr, 1 ≤ x ∧ x ≤ g.vertices.length)
    (hcons : edgesConsistent g) :
    edgesConsistent (fanState g px py c pr) := by
  obtain ⟨hA, hB⟩ := hcons
  constructor
  · intro e he
    rw [fanState_edges, Finset.mem_union] at he
    rcases he with he | he
    · obtain ⟨hlt, ⟨v1, hv1, hv1i, hv1n⟩, ⟨v2, hv2, hv2i, hv2n⟩⟩ := hA e he
      refine ⟨hlt, ⟨updFan (g.vertices.length + 1) pr v1, ?_, ?_, ?_⟩,
        ⟨updFan (g.vertices.length + 1) pr v2, ?_, ?_, ?_⟩⟩
      · rw [fanState_vertices, List.mem_append]
        exact Or.inl (List.mem_map_of_mem _ hv1)
      · rw [updFan_index]
        exact hv1i
      · unfold updFan
        split
        · exact Finset.mem_insert_of_mem hv1n
        · exact hv1n
      · rw [fanState_vertices, List.mem_append]
        exact Or.inl (List.mem_map_of_mem _ hv2)
      · rw [updFan_index]
        exact hv2i
      · unfold updFan
        split
        · exact Finset.mem_insert_of_mem hv2n
        · exact hv2n
    · rw [List.mem_toFinset, List.mem_map] at he
      obtain ⟨x, hx, rfl⟩ := he
      obtain ⟨hx1, hxn⟩ := hprb x hx
      obtain ⟨w, hw, hwi⟩ := exists_vertex_of_index g hidx x hx1 hxn
      refine ⟨by simp only []; omega,
        ⟨updFan (g.vertices.length + 1) pr w, ?_, ?_, ?_⟩,
        ⟨⟨g.vertices.length + 1, px, py, c, pr.toFinset⟩, ?_, rfl, ?_⟩⟩
      · rw [fanState_vertices, List.mem_append]
        exact Or.inl (List.mem_map_of_mem _ hw)
      · rw [updFan_index]
        exact hwi
      · unfold updFan
        rw [if_pos (by rw [hwi]; exact hx)]
        exact Finset.mem_insert_self _ _
      · rw [fanState_vertices, List.mem_append]
        simp
      · exact List.mem_toFinset.mpr hx
  · intro v hv j hj
    rw [fanState_vertices, List.mem_append] at hv
    rcases hv with hv | hv
    · rw [List.mem_map] at hv
      obtain ⟨w, hw, rfl⟩ := hv
      have hwidx : (updFan (g.vertices.length + 1) pr w).index = w.index :=
        updFan_index _ _ _
      rw [hwidx]
      unfold updFan at hj
      split at hj
      · next hwin =>
        simp only [Finset.mem_insert] at hj
        rcases hj with rfl | hj
        · have hwb := index_bounds_of_mem g hidx w hw
          have hmin : min w.index (g.vertices.length + 1) = w.index := by
            omega
          have hmax : max w.index (g.vertices.length + 1)
              = g.vertices.length + 1 := by omega
          rw [hmin, hmax, fanState_edges, Finset.mem_union]
          exact Or.inr (List.mem_toFinset.mpr
            (List.mem_map_of_mem _ hwin))
        · rw [fanState_edges, Finset.mem_union]
          exact Or.inl (hB w hw j hj)
      · rw [fanState_edges, Finset.mem_union]
        exact Or.inl (hB w hw j hj)
    · simp only [List.mem_singleton] at hv
      subst hv
      simp only [List.mem_toFinset] at hj
      obtain ⟨hj1, hjn⟩ := hprb j hj
      have hmin : min (g.vertices.length + 1) j = j := by omega
      have hmax : max (g.vertices.length + 1) j = g.vertices.length + 1 := by
        omega
      simp only [hmin, hmax]
      rw [fanState_edges, Finset.mem_union]
      exact Or.inr (List.mem_toFinset.mpr (List.mem_map_of_mem _ hj))

theorem neighborsOf_congr (g1 g2 : Graph) (h : g1.vertices = g2.vertices)
    (k : Nat) : neighborsOf g1 k = neighborsOf g2 k := by
  unfold neighborsOf
  rw [h]

theorem take_drop_disjoint {α : Type} (l : List α) (n : Nat)
    (h : l.Nodup) : (l.take n).Disjoint (l.drop n) := by
  have h2 : (l.take n ++ l.drop n).Nodup := by
    rwa [List.take_append_drop n l]
  exact (List.nodup_append.mp h2).2.2

theorem connectList_subset (g : Graph) (vp vq : Nat) :
    ∀ x ∈ connectList g vp vq, x ∈ g.periphery := by
  intro x hx
  simp only [connectList] at hx
  split at hx
  · exact List.drop_subset _ _ (List.take_subset _ _ hx)
  · rcases List.mem_append.mp hx with h | h
    · exact List.drop_subset _ _ h
    · exact List.take_subset _ _ h

theorem connectList_spec_lt (g : Graph) (vp vq : Nat)
    (hp : vp ∈ g.periphery) (hq : vq ∈ g.periphery)
    (hlt : g.periphery.indexOf vp < g.periphery.indexOf vq) :
    (∃ t, connectList g vp vq = vp :: t)
    ∧ (connectList g vp vq).getLastD vp = vq
    ∧ (connectList g vp vq).length
        = g.periphery.indexOf vq + 1 - g.periphery.indexOf vp
    ∧ (g.periphery.Nodup → (connectList g vp vq).Nodup) := by
  have hip : g.periphery.indexOf vp < g.periphery.length :=
    List.indexOf_lt_length.mpr hp
  have hiq : g.periphery.indexOf vq < g.periphery.length :=
    List.indexOf_lt_length.mpr hq
  have hgp : g.periphery[g.periphery.indexOf vp] = vp :=
    List.getElem_indexOf hip
  have hgq : g.periphery[g.periphery.indexOf vq] = vq :=
    List.getElem_indexOf hiq
  have hcv : connectList g vp vq
      = (g.periphery.drop (g.periphery.indexOf vp)).take
          (g.periphery.indexOf vq + 1 - g.periphery.indexOf vp) := by
    simp only [connectList]
    rw [if_pos hlt]
  refine ⟨?_, ?_, ?_, ?_⟩
  · rw [hcv, List.drop_eq_getElem_cons hip, hgp,
      show g.periphery.indexOf vq + 1 - g.periphery.indexOf vp
        = (g.periphery.indexOf vq - g.periphery.indexOf vp) + 1 from by omega,
      List.take_succ_cons]
    exact ⟨_, rfl⟩
  · rw [hcv, ← List.drop_take, List.take_succ,
      List.getElem?_eq_getElem hiq, hgq, Option.toList_some,
      List.drop_append_of_le_length (by rw [List.length_take]; omega)]
    exact List.getLastD_concat _ _ _
  · rw [hcv, List.length_take, List.length_drop]
    omega
  · intro hnd
    rw [hcv]
    exact ((List.take_sublist _ _).trans (List.drop_sublist _ _)).nodup hnd

theorem connectList_spec_gt (g : Graph) (vp vq : Nat)
    (hp : vp ∈ g.periphery) (hq : vq ∈ g.periphery)
    (hgt : g.periphery.indexOf vq < g.periphery.indexOf vp) :
    (∃ t, connectList g vp vq = vp :: t)
    ∧ (connectList g vp vq).getLastD vp = vq
    ∧ (connectList g vp vq).length
        = (g.periphery.length - g.periphery.indexOf vp)
            + (g.periphery.indexOf vq + 1)
    ∧ (g.periphery.Nodup → (connectList g vp vq).Nodup) := by
  have hip : g.periphery.indexOf vp < g.periphery.length :=
    List.indexOf_lt_length.mpr hp
  have hiq : g.periphery.indexOf vq < g.periphery.length :=
    List.indexOf_lt_length.mpr hq
  have hgp : g.periphery[g.periphery.indexOf vp] = vp :=
    List.getElem_indexOf hip
  have hgq : g.periphery[g.periphery.indexOf vq] = vq :=
    List.getElem_indexOf hiq
  have hcv : connectList g vp vq
      = g.periphery.drop (g.periphery.indexOf vp)
          ++ g.periphery.take (g.periphery.indexOf vq + 1) := by
    simp only [connectList]
    rw [if_neg (by omega)]
  refine ⟨?_, ?_, ?_, ?_⟩
  · rw [hcv, List.drop_eq_getElem_cons hip, hgp, List.cons_append]
    exact ⟨_, rfl⟩
  · rw [hcv, List.take_succ, List.getElem?_eq_getElem hiq, hgq,
      Option.toList_some, ← List.append_assoc]
    exact List.getLastD_concat _ _ _
  · rw [hcv, List.length_append, List.length_drop, List.length_take]
    omega
  · intro hnd
    rw [hcv, List.nodup_append]
    refine ⟨(List.drop_sublist _ _).nodup hnd,
      (List.take_sublist _ _).nodup hnd, ?_⟩
    intro x hxd hxt
    have h1 : x ∈ g.periphery.drop (g.periphery.indexOf vq + 1) := by
      have h2 : g.periphery.drop (g.periphery.indexOf vp)
          = (g.periphery.drop (g.periphery.indexOf vq + 1)).drop
              (g.periphery.indexOf vp - (g.periphery.indexOf vq + 1)) := by
        rw [List.drop_drop]
        congr 1
        omega
      rw [h2] at hxd
      exact List.drop_subset _ _ hxd
    exact take_drop_disjoint g.periphery (g.periphery.indexOf vq + 1) hnd
      hxt h1

theorem update_periphery_frame (g : Graph) (cv : List Nat) (newv : Nat) :
    (update_periphery_after_addition g cv newv).vertices = g.vertices
    ∧ (update_periphery_after_addition g cv newv).edges = g.edges
    ∧ (update_periphery_after_addition g cv newv).max_vertex
        = g.max_vertex := by
  cases cv with
  | nil => exact ⟨rfl, rfl, rfl⟩
  | cons c0 t =>
    simp only [update_periphery_after_addition]
    split <;> exact ⟨rfl, rfl, rfl⟩

theorem update_periphery_cons (g2 : Graph) (newv vp vq : Nat)
    (t : List Nat) (hlast : (vp :: t).getLastD vp = vq) :
    update_periphery_after_addition g2 (vp :: t) newv
      = if g2.periphery.indexOf vp ≤ g2.periphery.indexOf vq then
          { g2 with periphery :=
              g2.periphery.take (g2.periphery.indexOf vp) ++ [newv]
                ++ g2.periphery.drop (g2.periphery.indexOf vq + 1) }
        else
          { g2 with periphery := (g2.periphery.drop (g2.periphery.indexOf vq + 1)).take (g2.periphery.indexOf vp - (g2.periphery.indexOf vq + 1)) ++ [newv] } := by
  simp only [update_periphery_after_addition]
  rw [hlast]

theorem insert_eq_fan (g : Graph) (vp vq : Nat) (px py : ℚ) (c : Nat)
    (hidx : g.vertices.map Vertex.index = List.range' 1 g.vertices.length)
    (hperb : ∀ i ∈ g.periphery, i ≤ g.vertices.length)
    (hp : vp ∈ g.periphery) (hq : vq ∈ g.periphery) :
    add_vertex_to_periphery g vp vq px py c
      = (update_periphery_after_addition
          (fanState g px py c (connectList g vp vq)) (connectList g vp vq)
          (g.vertices.length + 1),
        some (g.vertices.length + 1)) := by
  unfold add_vertex_to_periphery
  rw [if_neg (by push_neg; exact ⟨hp, hq⟩)]
  show (update_periphery_after_addition
      ((connectList g vp vq).foldl
        (fun h v => add_edge h (g.vertices.length + 1) v)
        (add_vertex g px py c).1)
      (connectList g vp vq) (g.vertices.length + 1),
    some (g.vertices.length + 1)) = _
  rw [fan_eq g px py c (connectList g vp vq) hidx
    (fun x hx => hperb x (connectList_subset g vp vq x hx))]

theorem insert_valid_spec (g : Graph) (vp vq : Nat) (px py : ℚ) (c : Nat)
    (hidx : g.vertices.map Vertex.index = List.range' 1 g.vertices.length)
    (hnd : g.periphery.Nodup)
    (hperb : ∀ i ∈ g.periphery, 1 ≤ i ∧ i ≤ g.vertices.length)
    (hedgeb : ∀ e ∈ g.edges, e.2 ≤ g.vertices.length)
    (hp : vp ∈ g.periphery) (hq : vq ∈ g.periphery) (hne : vp ≠ vq) :
    (add_vertex_to_periphery g vp vq px py c).2
        = some (g.vertices.length + 1)
    ∧ (add_vertex_to_periphery g vp vq px py c).1.vertices.length
        = g.vertices.length + 1
    ∧ (add_vertex_to_periphery g vp vq px py c).1.edges.card
        = g.edges.card + (connectList g vp vq).length
    ∧ (add_vertex_to_periphery g vp vq px py c).1.periphery.length
          + (connectList g vp vq).length
        = g.periphery.length + 1
    ∧ neighborsOf (add_vertex_to_periphery g vp vq px py c).1
          (g.vertices.length + 1)
        = (connectList g vp vq).toFinset
    ∧ (g.vertices.length + 1)
        ∈ (add_vertex_to_periphery g vp vq px py c).1.periphery
    ∧ g.edges ⊆ (add_vertex_to_periphery g vp vq px py c).1.edges
    ∧ 2 ≤ (connectList g vp vq).length := by
  have hip : g.periphery.indexOf vp < g.periphery.length :=
    List.indexOf_lt_length.mpr hp
  have hiq : g.periphery.indexOf vq < g.periphery.length :=
    List.indexOf_lt_length.mpr hq
  have hipq : g.periphery.indexOf vp ≠ g.periphery.indexOf vq :=
    fun he => hne ((List.indexOf_inj hp hq).mp he)
  rw [insert_eq_fan g vp vq px py c hidx (fun i hi => (hperb i hi).2) hp hq]
  rcases Nat.lt_or_ge (g.periphery.indexOf vp) (g.periphery.indexOf vq)
    with hlt | hge
  · obtain ⟨⟨t, hcons⟩, hlast, hlen, hndf⟩ :=
      connectList_spec_lt g vp vq hp hq hlt
    have hcvnd : (connectList g vp vq).Nodup := hndf hnd
    rw [hcons] at hlast hcvnd hlen ⊢
    rw [update_periphery_cons (fanState g px py c (vp :: t))
      (g.vertices.length + 1) vp vq t hlast]
    rw [fanState_periphery]
    rw [if_pos (Nat.le_of_lt hlt)]
    refine ⟨rfl, fanState_vertices_length g px py c (vp :: t),
      fanState_edges_card g px py c (vp :: t) hcvnd hedgeb, ?_,
      (neighborsOf_congr _ (fanState g px py c (vp :: t)) rfl _).trans
        (neighborsOf_fanState_new g px py c (vp :: t) hidx),
      ?_, fanState_edges_subset g px py c (vp :: t), ?_⟩
    · have hmin : min (g.periphery.indexOf vp) g.periphery.length
          = g.periphery.indexOf vp := Nat.min_eq_left (Nat.le_of_lt hip)
      simp only [List.length_append, List.length_take, List.length_drop,
        List.length_cons, List.length_singleton, List.length_nil,
        hmin] at hlen ⊢
      omega
    · simp [List.mem_append]
    · simp only [List.length_cons] at hlen ⊢
      omega
  · have hgt : g.periphery.indexOf vq < g.periphery.indexOf vp := by omega
    obtain ⟨⟨t, hcons⟩, hlast, hlen, hndf⟩ :=
      connectList_spec_gt g vp vq hp hq hgt
    have hcvnd : (connectList g vp vq).Nodup := hndf hnd
    rw [hcons] at hlast hcvnd hlen ⊢
    rw [update_periphery_cons (fanState g px py c (vp :: t))
      (g.vertices.length + 1) vp vq t hlast]
    rw [fanState_periphery]
    rw [if_neg (by omega)]
    refine ⟨rfl, fanState_vertices_length g px py c (vp :: t),
      fanState_edges_card g px py c (vp :: t) hcvnd hedgeb, ?_,
      (neighborsOf_congr _ (fanState g px py c (vp :: t)) rfl _).trans
        (neighborsOf_fanState_new g px py c (vp :: t) hidx),
      ?_, fanState_edges_subset g px py c (vp :: t), ?_⟩
    · have hmin : min
            (g.periphery.indexOf vp - (g.periphery.indexOf vq + 1))
            (g.periphery.length - (g.periphery.indexOf vq + 1))
          = g.periphery.indexOf vp - (g.periphery.indexOf vq + 1) :=
        Nat.min_eq_left (by omega)
      simp only [List.length_append, List.length_take, List.length_drop,
        List.length_cons, List.length_singleton, List.length_nil,
        hmin] at hlen ⊢
      omega
    · simp [List.mem_append]
    · simp only [List.length_cons] at hlen ⊢
      omega

theorem update_periphery_nodup_mem (g : Graph) (cv : List Nat) (nv : Nat)
    (hnd : g.periphery.Nodup) (hnv : nv ∉ g.periphery) :
    (update_periphery_after_addition g cv nv).periphery.Nodup
    ∧ ∀ i ∈ (update_periphery_after_addition g cv nv).periphery,
        i ∈ g.periphery ∨ i = nv := by
  cases cv with
  | nil => exact ⟨hnd, fun i hi => Or.inl hi⟩
  | cons c0 t =>
    simp only [update_periphery_after_addition]
    split
    · next hle =>
      constructor
      · rw [List.append_assoc, List.singleton_append, List.nodup_middle,
          List.nodup_cons]
        constructor
        · intro hmem
          rcases List.mem_append.mp hmem with h | h
          · exact hnv (List.take_subset _ _ h)
          · exact hnv (List.drop_subset _ _ h)
        · have hsub : (g.periphery.take (g.periphery.indexOf c0) ++
              g.periphery.drop
                (g.periphery.indexOf ((c0 :: t).getLastD c0) + 1)).Sublist
              (g.periphery.take (g.periphery.indexOf c0) ++
                g.periphery.drop (g.periphery.indexOf c0)) := by
            apply List.Sublist.append (List.Sublist.refl _)
            have h2 : g.periphery.drop
                (g.periphery.indexOf ((c0 :: t).getLastD c0) + 1)
                = (g.periphery.drop (g.periphery.indexOf c0)).drop
                    (g.periphery.indexOf ((c0 :: t).getLastD c0) + 1
                      - g.periphery.indexOf c0) := by
              rw [List.drop_drop]
              congr 1
              omega
            rw [h2]
            exact List.drop_sublist _ _
          exact hsub.nodup (by rw [List.take_append_drop]; exact hnd)
      · intro i hi
        rcases List.mem_append.mp hi with h | h
        · rcases List.mem_append.mp h with h2 | h2
          · exact Or.inl (List.take_subset _ _ h2)
          · simp only [List.mem_singleton] at h2
            exact Or.inr h2
        · exact Or.inl (List.drop_subset _ _ h)
    · constructor
      · rw [List.nodup_append]
        refine ⟨((List.take_sublist _ _).trans
          (List.drop_sublist _ _)).nodup hnd, List.nodup_singleton _, ?_⟩
        intro x hx hx2
        simp only [List.mem_singleton] at hx2
        subst hx2
        exact hnv (List.drop_subset _ _ (List.take_subset _ _ hx))
      · intro i hi
        rcases List.mem_append.mp hi with h | h
        · exact Or.inl (List.drop_subset _ _ (List.take_subset _ _ h))
        · simp only [List.mem_singleton] at h
          exact Or.inr h

theorem edgesConsistent_of_eq (g1 g2 : Graph)
    (hv : g2.vertices = g1.vertices) (he : g2.edges = g1.edges)
    (h : edgesConsistent g1) : edgesConsistent g2 := by
  unfold edgesConsistent at h ⊢
  rw [hv, he]
  exact h

theorem wf_insert (g : Graph) (vp vq : Nat) (px py : ℚ) (c : Nat)
    (hwf : WF g) : WF (add_vertex_to_periphery g vp vq px py c).1 := by
  obtain ⟨hidx, hnd, hperb, hedgeb, hnbrb, hcons⟩ := hwf
  by_cases hg : vp ∉ g.periphery ∨ vq ∉ g.periphery
  · unfold add_vertex_to_periphery
    rw [if_pos hg]
    exact ⟨hidx, hnd, hperb, hedgeb, hnbrb, hcons⟩
  · push_neg at hg
    obtain ⟨hp, hq⟩ := hg
    rw [insert_eq_fan g vp vq px py c hidx (fun i hi => (hperb i hi).2) hp hq]
    have hcvb : ∀ x ∈ connectList g vp vq,
        1 ≤ x ∧ x ≤ g.vertices.length :=
      fun x hx => hperb x (connectList_subset g vp vq x hx)
    obtain ⟨hFv, hFe, hFm⟩ := update_periphery_frame
      (fanState g px py c (connectList g vp vq)) (connectList g vp vq)
      (g.vertices.length + 1)
    have hFper : (fanState g px py c (connectList g vp vq)).periphery
        = g.periphery := fanState_periphery _ _ _ _ _
    have hnew_notin : (g.vertices.length + 1)
        ∉ (fanState g px py c (connectList g vp vq)).periphery := by
      rw [hFper]
      intro hmem
      have := hperb _ hmem
      omega
    obtain ⟨hund, humem⟩ := update_periphery_nodup_mem
      (fanState g px py c (connectList g vp vq)) (connectList g vp vq)
      (g.vertices.length + 1) (by rw [hFper]; exact hnd) hnew_notin
    have hRlen : (update_periphery_after_addition
        (fanState g px py c (connectList g vp vq)) (connectList g vp vq)
        (g.vertices.length + 1)).vertices.length
        = g.vertices.length + 1 := by
      rw [hFv]
      exact fanState_vertices_length g px py c (connectList g vp vq)
    refine ⟨?_, hund, ?_, ?_, ?_, ?_⟩
    · rw [hRlen, hFv, ← fanState_vertices_length g px py c
        (connectList g vp vq)]
      exact fanState_map_index g px py c (connectList g vp vq) hidx
    · intro i hi
      rw [hRlen]
      rcases humem i hi with h | h
      · rw [hFper] at h
        have := hperb i h
        omega
      · omega
    · intro e he
      rw [hRlen]
      rw [hFe] at he
      have := fanState_edge_bounds g px py c (connectList g vp vq) hedgeb
        hcvb e he
      rw [fanState_vertices_length] at this
      exact this
    · intro v hv j hj
      rw [hRlen]
      rw [hFv] at hv
      have := fanState_nbr_bounds g px py c (connectList g vp vq) hnbrb
        hcvb v hv j hj
      rw [fanState_vertices_length] at this
      exact this
    · exact edgesConsistent_of_eq _ _ hFv hFe
        (fanState_consistent g px py c (connectList g vp vq) hidx hcvb hcons)

set_option maxHeartbeats 2000000 in
theorem start_basic_graph_eq (g : Graph) :
    start_basic_graph g = seedGraph := rfl

theorem reachable_wf (g : Graph) (h : Reachable g) : WF g := by
  induction h with
  | seed g0 =>
    rw [start_basic_graph_eq g0]
    decide
  | insert g0 vp vq px py c hr ih =>
    exact wf_insert g0 vp vq px py c ih
  | random g0 idx1 draws px py c g2 r hr heq ih =>
    unfold add_random_vertex at heq
    split at heq
    · simp only [Option.some.injEq, Prod.mk.injEq] at heq
      obtain ⟨h1, h2⟩ := heq
      rw [← h1]
      exact ih
    · split at heq
      · exact absurd heq (by simp)
      · rename_i idx2 hpick
        simp only [Option.some.injEq] at heq
        have h3 : (add_vertex_to_periphery g0
            (g0.periphery.getD (min idx1 idx2) 0)
            (g0.periphery.getD (max idx1 idx2) 0) px py c).1 = g2 := by
          rw [heq]
        rw [← h3]
        exact wf_insert g0 _ _ px py c ih
  | goto g0 m hr ih =>
    exact ih

theorem find?_eq_of_nodup_index (vs : List Vertex)
    (hn : (vs.map Vertex.index).Nodup) (v : Vertex) (hv : v ∈ vs) (k : Nat)
    (hk : v.index = k) :
    vs.find? (fun w => w.index = k) = some v := by
  induction vs with
  | nil => cases hv
  | cons w ws ih =>
    rw [List.map_cons, List.nodup_cons] at hn
    rcases List.mem_cons.mp hv with rfl | hv2
    · simp [List.find?_cons, hk]
    · have hwk : w.index ≠ k := by
        intro he
        exact hn.1 (by rw [he, ← hk]; exact List.mem_map_of_mem _ hv2)
      have hd : (decide (w.index = k)) = false := by simp [hwk]
      rw [List.find?_cons, hd]
      exact ih hn.2 hv2

/-- C4: under the structural invariants the program maintains, for every
valid arc — both endpoints on the periphery and distinct, spanning
`k = |connect_vertices| >= 2` periphery vertices inclusive — a successful
`add_vertex_to_periphery` returns the next sequential index, increases the
vertex count by exactly 1 and the edge count by exactly `k`, changes the
periphery length by exactly `1 - k`, gives the new vertex degree `k`,
places the new vertex on the resulting periphery, and removes or alters no
previously existing edge (the old edge set is contained in the new one). -/
theorem c4_insert_on_arc_counts (g : Graph) (vp vq : Nat) (px py : ℚ)
    (c : Nat) (hwf : WF g) (hp : vp ∈ g.periphery) (hq : vq ∈ g.periphery)
    (hne : vp ≠ vq) :
    (add_vertex_to_periphery g vp vq px py c).2
        = some (g.vertices.length + 1)
    ∧ (add_vertex_to_periphery g vp vq px py c).1.vertices.length
        = g.vertices.length + 1
    ∧ (add_vertex_to_periphery g vp vq px py c).1.edges.card
        = g.edges.card + (connectList g vp vq).length
    ∧ (add_vertex_to_periphery g vp vq px py c).1.periphery.length
          + (connectList g vp vq).length
        = g.periphery.length + 1
    ∧ degree (add_vertex_to_periphery g vp vq px py c).1
          (g.vertices.length + 1)
        = (connectList g vp vq).length
    ∧ (g.vertices.length + 1)
        ∈ (add_vertex_to_periphery g vp vq px py c).1.periphery
    ∧ g.edges ⊆ (add_vertex_to_periphery g vp vq px py c).1.edges
    ∧ 2 ≤ (connectList g vp vq).length := by
  obtain ⟨hidx, hnd, hperb, hedgeb, hnbrb, hcons⟩ := hwf
  have hedgeb2 : ∀ e ∈ g.edges, e.2 ≤ g.vertices.length :=
    fun e he => (hedgeb e he).2.2.2
  obtain ⟨h1, h2, h3, h4, h5, h6, h7, h8⟩ :=
    insert_valid_spec g vp vq px py c hidx hnd hperb hedgeb2 hp hq hne
  have hcvnd : (connectList g vp vq).Nodup := by
    rcases Nat.lt_or_ge (g.periphery.indexOf vp) (g.periphery.indexOf vq)
      with hlt | hge
    · exact (connectList_spec_lt g vp vq hp hq hlt).2.2.2 hnd
    · have hipq : g.periphery.indexOf vp ≠ g.periphery.indexOf vq :=
        fun he => hne ((List.indexOf_inj hp hq).mp he)
      exact (connectList_spec_gt g vp vq hp hq (by omega)).2.2.2 hnd
  refine ⟨h1, h2, h3, h4, ?_, h6, h7, h8⟩
  unfold degree
  rw [h5]
  exact List.toFinset_card_of_nodup hcvnd

/-- C4 witness: on the seed triangle the arc from vertex 1 to vertex 2
spans exactly the two endpoints, and the insertion adds vertex 4 with the
claimed counts. -/
theorem c4_witness :
    (add_vertex_to_periphery seedGraph 1 2 0 0 0).2
        = some (seedGraph.vertices.length + 1)
    ∧ (add_vertex_to_periphery seedGraph 1 2 0 0 0).1.vertices.length
        = seedGraph.vertices.length + 1
    ∧ (add_vertex_to_periphery seedGraph 1 2 0 0 0).1.edges.card
        = seedGraph.edges.card + (connectList seedGraph 1 2).length
    ∧ (add_vertex_to_periphery seedGraph 1 2 0 0 0).1.periphery.length
          + (connectList seedGraph 1 2).length
        = seedGraph.periphery.length + 1
    ∧ degree (add_vertex_to_periphery seedGraph 1 2 0 0 0).1
          (seedGraph.vertices.length + 1)
        = (connectList seedGraph 1 2).length
    ∧ (seedGraph.vertices.length + 1)
        ∈ (add_vertex_to_periphery seedGraph 1 2 0 0 0).1.periphery
    ∧ seedGraph.edges ⊆ (add_vertex_to_periphery seedGraph 1 2 0 0 0).1.edges
    ∧ 2 ≤ (connectList seedGraph 1 2).length :=
  c4_insert_on_arc_counts seedGraph 1 2 0 0 0 (by decide) (by decide)
    (by decide) (by decide)

/-- C10: in every state reachable by reset and the insertion operations,
the edge set and the per-vertex neighbour sets agree — the normalised pair
`(min i j, max i j)` is stored exactly when `j` is registered as a
neighbour of the vertex indexed `i` and vice versa — and the edge set never
contains a self-loop. -/
theorem c10_edges_neighbors_consistent (g : Graph) (h : Reachable g) :
    (∀ i j : Nat, ((min i j, max i j) ∈ g.edges
        ↔ j ∈ neighborsOf g i ∧ i ∈ neighborsOf g j))
    ∧ ∀ i : Nat, (i, i) ∉ g.edges := by
  obtain ⟨hidx, _, _, _, _, hA, hB⟩ := reachable_wf g h
  have hnodup : (g.vertices.map Vertex.index).Nodup := by
    rw [hidx]
    exact List.nodup_range' _ _
  have hforward : ∀ v ∈ g.vertices, ∀ j ∈ v.neighbors,
      j ∈ neighborsOf g v.index := by
    intro v hv j hj
    unfold neighborsOf
    rw [find?_eq_of_nodup_index g.vertices hnodup v hv v.index rfl]
    exact hj
  constructor
  · intro i j
    constructor
    · intro hmem
      have hAe := hA (min i j, max i j) hmem
      dsimp only at hAe
      obtain ⟨hlt, ⟨v1, hv1, hv1i, hv1n⟩, ⟨v2, hv2, hv2i, hv2n⟩⟩ := hAe
      rcases Nat.le_total i j with hij | hij
      · rw [Nat.min_eq_left hij] at hv1i hv2n
        rw [Nat.max_eq_right hij] at hv2i hv1n
        constructor
        · have h2 := hforward v1 hv1 j hv1n
          rwa [hv1i] at h2
        · have h2 := hforward v2 hv2 i hv2n
          rwa [hv2i] at h2
      · rw [Nat.min_eq_right hij] at hv1i hv2n
        rw [Nat.max_eq_left hij] at hv2i hv1n
        constructor
        · have h2 := hforward v2 hv2 j hv2n
          rwa [hv2i] at h2
        · have h2 := hforward v1 hv1 i hv1n
          rwa [hv1i] at h2
    · rintro ⟨hji, _⟩
      unfold neighborsOf at hji
      cases hfind : g.vertices.find? (fun v => v.index = i) with
      | none =>
        rw [hfind] at hji
        simp at hji
      | some v =>
        rw [hfind] at hji
        simp at hji
        have hvi : v.index = i := by
          have := List.find?_some hfind
          simpa using this
        have := hB v (List.mem_of_find?_eq_some hfind) j hji
        rwa [hvi] at this
  · intro i hmem
    have := (hA _ hmem).1
    simp at this

/-- C10 witness: the seed triangle is reachable, its edge `(1, 2)` is
mirrored in both neighbour sets, and it stores no self-loop at vertex 3. -/
theorem c10_witness :
    ((min 1 2, max 1 2) ∈ seedGraph.edges
        ↔ 2 ∈ neighborsOf seedGraph 1 ∧ 1 ∈ neighborsOf seedGraph 2)
    ∧ (3, 3) ∉ seedGraph.edges :=
  (fun h => ⟨h.1 1 2, h.2 3⟩)
    (c10_edges_neighbors_consistent seedGraph (Reachable.seed graphInit))

end PlanarVis
